import Mathlib

/-!
Verification model of the strided-view-over-shared-storage abstraction that the
notebook `02_on_tensors.ipynb` demonstrates.  The notebook exercises a tensor
library whose implementation is external to the repository, so the data model
(Buffer, View) and its operations are modelled from the specification: a Buffer
is an owned contiguous typed block of elements, a View is an
offset/shape/strides descriptor referencing a Buffer by handle, and every
operation below follows the spec's description of the corresponding library
call.  Element values are idealised as rationals so that arithmetic is exact
and every definition is executable.
-/

namespace TensorModel

/-- Modelled from the spec: the opaque `location` tag carried by a View
("local" vs "accelerated" execution context), standing in for the notebook's
`'cpu'` / `'cuda'` devices. -/
inductive Location
  | cpu
  | cuda
  deriving DecidableEq

/-- Modelled from the spec: the closed set of element kinds a Buffer may hold —
signed integers of fixed width, an unsigned integer kind, floating-point kinds
of fixed width, and boolean (the notebook's `torch.short`, `torch.double`,
etc.). -/
inductive ElementKind
  | int8
  | int16
  | int32
  | int64
  | uint8
  | float32
  | float64
  | boolKind
  deriving DecidableEq

/-- Bit width of an element kind. -/
def ElementKind.width : ElementKind → Nat
  | .int8 => 8
  | .int16 => 16
  | .int32 => 32
  | .int64 => 64
  | .uint8 => 8
  | .float32 => 32
  | .float64 => 64
  | .boolKind => 8

/-- Signed fixed-width integer kinds. -/
def ElementKind.isSignedInt : ElementKind → Bool
  | .int8 => true
  | .int16 => true
  | .int32 => true
  | .int64 => true
  | _ => false

/-- Unsigned fixed-width integer kinds. -/
def ElementKind.isUnsignedInt : ElementKind → Bool
  | .uint8 => true
  | _ => false

/-- Fixed-width integer kinds, signed or unsigned. -/
def ElementKind.isInt (k : ElementKind) : Bool :=
  k.isSignedInt || k.isUnsignedInt

/-- Floating-point element kinds. -/
def ElementKind.isFloat : ElementKind → Bool
  | .float32 => true
  | .float64 => true
  | _ => false

/-- Modelled from the spec: an owned, contiguous, homogeneous-typed block of
memory holding `data.length` elements of kind `kind`, residing at `location`.
Element values are idealised as exact rationals. -/
structure Buffer where
  kind : ElementKind
  location : Location
  data : List Rat
  deriving DecidableEq

/-- Modelled from the spec: a View interprets a Buffer as an n-dimensional
array via `offset` (element index into the buffer), `shape` (dimension sizes)
and `strides` (signed element-step counts, one per dimension).  The Buffer is
referenced by handle (`buf`), an index into the store's buffer table, making
the sharing of one Buffer by many Views explicit. -/
structure View where
  buf : Nat
  offset : Int
  shape : List Nat
  strides : List Int
  deriving DecidableEq

/-- The runtime store: the table of all live Buffers.  A View's `buf` field
indexes into `bufs`. -/
structure Store where
  bufs : List Buffer
  deriving DecidableEq

/-- Modelled from the spec: the error taxonomy — every operation fails
synchronously with one of these. -/
inductive TensorError
  | AllocationError
  | IndexError
  | ShapeError
  | NotContiguousError
  | UnavailableLocationError
  deriving DecidableEq

/-- Dot product of a multi-index against a stride vector, truncating at the
shorter list: `dot ix strides = Σ ix[k] * strides[k]`. -/
def dot : List Nat → List Int → Int
  | a :: as, b :: bs => (a : Int) * b + dot as bs
  | _, _ => 0

/-- `validIx ix shape` holds when `ix` is a multi-index of the same rank as
`shape` with every coordinate inside its dimension. -/
def validIx : List Nat → List Nat → Bool
  | [], [] => true
  | i :: is, n :: ns => decide (i < n) && validIx is ns
  | _, _ => false

/-- Flat element address of a multi-index through a View:
`offset + Σ ix[k] * strides[k]`, exactly the spec's addressing formula. -/
def flatAddr (v : View) (ix : List Nat) : Int :=
  v.offset + dot ix v.strides

/-- A View is well-formed when it carries one stride per dimension. -/
def wf (v : View) : Prop :=
  v.strides.length = v.shape.length

/-- Modelled from the spec: reading the element at logical position `ix`
through View `v`.  Returns `none` when the index is invalid for the View's
shape or the resolved flat address falls outside the referenced Buffer. -/
def read (s : Store) (v : View) (ix : List Nat) : Option Rat :=
  match s.bufs[v.buf]? with
  | none => none
  | some b =>
    if validIx ix v.shape && decide (0 ≤ flatAddr v ix) then
      b.data[(flatAddr v ix).toNat]?
    else none

/-- Modelled from the spec: writing value `val` at logical position `ix`
through View `v`, mutating the referenced Buffer in place (the notebook's
`tens[0, 0] = 10`).  Out-of-range writes leave the store unchanged. -/
def write (s : Store) (v : View) (ix : List Nat) (val : Rat) : Store :=
  match s.bufs[v.buf]? with
  | none => s
  | some b =>
    if validIx ix v.shape && decide (0 ≤ flatAddr v ix) then
      ⟨s.bufs.set v.buf ⟨b.kind, b.location, b.data.set (flatAddr v ix).toNat val⟩⟩
    else s

/-- Swap the entries of `l` at positions `i` and `j`; out-of-range positions
leave the list unchanged. -/
def swapNth (l : List α) (i j : Nat) : List α :=
  match l[i]?, l[j]? with
  | some a, some b => (l.set i b).set j a
  | _, _ => l

/-- Modelled from the spec: `transpose(dim_a, dim_b)` returns a new View over
the same Buffer with `shape` and `strides` swapped at the two dimensions, and
fails with `IndexError` if either index is outside `[0, rank)` (the notebook's
`c.transpose(0, 2)`). -/
def transpose (v : View) (i j : Nat) : Except TensorError View :=
  if i < v.shape.length ∧ j < v.shape.length then
    .ok ⟨v.buf, v.offset, swapNth v.shape i j, swapNth v.strides i j⟩
  else .error .IndexError

/-- Row-major (C-contiguous) strides of a shape: `strides[k] = Π shape[k+1:]`. -/
def contiguousStrides : List Nat → List Int
  | [] => []
  | _ :: ns => (ns.prod : Int) :: contiguousStrides ns

/-- Modelled from the spec: `reshape(new_shape)` returns a new View over the
same Buffer only if the View's existing strides make the requested shape
expressible as a strided reinterpretation of a contiguous-equivalent layout
(here: the strides are exactly the contiguous strides of the current shape and
the element counts agree); otherwise it fails with `NotContiguousError` and
performs no copy (the notebook's `d.view(-1, 4)`). -/
def reshape (v : View) (s : List Nat) : Except TensorError View :=
  if v.strides = contiguousStrides v.shape ∧ s.prod = v.shape.prod then
    .ok ⟨v.buf, v.offset, s, contiguousStrides s⟩
  else .error .NotContiguousError

/-- Modelled from the spec and the notebook's `d.squeeze(0)`: `squeeze(dim)`
removes dimension `dim` when its extent is 1; when the extent differs from 1
the View is returned unchanged (a no-op, as the notebook's output shows for a
2×2 tensor); an out-of-range dimension fails with `IndexError`. -/
def squeeze (v : View) (d : Nat) : Except TensorError View :=
  if d < v.shape.length then
    if v.shape.getD d 0 = 1 then
      .ok ⟨v.buf, v.offset, v.shape.eraseIdx d, v.strides.eraseIdx d⟩
    else .ok v
  else .error .IndexError

/-- Modelled from the spec: `unsqueeze(dim)` inserts a size-1 dimension at
position `dim` with no data movement (the notebook's `d.unsqueeze(0)`). -/
def unsqueeze (v : View) (d : Nat) : Except TensorError View :=
  if d ≤ v.shape.length then
    .ok ⟨v.buf, v.offset, v.shape.insertIdx d 1, v.strides.insertIdx d 1⟩
  else .error .IndexError

/-- Modelled from the spec: `slice(dim, start, stop, step)` adjusts the offset
by `start` steps along `dim`, multiplies that dimension's stride by `step`,
and sets `shape[dim] = ceil((stop-start)/step)`; out-of-range bounds fail with
`IndexError`. -/
def slice (v : View) (d start stop step : Nat) : Except TensorError View :=
  if d < v.shape.length ∧ start ≤ stop ∧ stop ≤ v.shape.getD d 0 ∧ 1 ≤ step then
    .ok ⟨v.buf, v.offset + (start : Int) * v.strides.getD d 0,
         v.shape.set d ((stop - start + step - 1) / step),
         v.strides.set d (v.strides.getD d 0 * (step : Int))⟩
  else .error .IndexError

/-- Row-major linearisation of a multi-index:
`flattenIx (n :: ns) (i :: is) = i * Π ns + flattenIx ns is`. -/
def flattenIx : List Nat → List Nat → Nat
  | _ :: ns, i :: is => i * ns.prod + flattenIx ns is
  | _, _ => 0

/-- Inverse of `flattenIx`: the multi-index of the `k`-th element of a shape
in row-major (logical) order. -/
def unflatten : List Nat → Nat → List Nat
  | [], _ => []
  | _ :: ns, k => k / ns.prod :: unflatten ns (k % ns.prod)

/-- The all-zero multi-index of a shape. -/
def zeroIx (sh : List Nat) : List Nat :=
  List.replicate sh.length 0

/-- Modelled from the spec: `extract_scalar()` (the notebook's `.item()`)
succeeds only if the shape denotes exactly one element, returning that element
as a detached value; otherwise it fails with `ShapeError`. -/
def extract_scalar (s : Store) (v : View) : Except TensorError Rat :=
  if v.shape.prod = 1 then
    match read s v (zeroIx v.shape) with
    | some q => .ok q
    | none => .error .IndexError
  else .error .ShapeError

/-- Modelled from the spec: `materialize_sequence()` (the notebook's
`.tolist()`) produces a copied, language-native sequence of all elements in
logical (row-major) order; always a full copy, detached from the store. -/
def materialize_sequence (s : Store) (v : View) : List Rat :=
  (List.range v.shape.prod).map fun k => (read s v (unflatten v.shape k)).getD 0

/-- Allocate a fresh Buffer holding `g` applied to the View's elements in
logical order, and return the default full-extent contiguous View over it.
The new Buffer is appended to the store, so its handle `s.bufs.length` differs
from every live handle — the copy can never alias an existing Buffer.  This is
the common core of `to_owned_copy`, `cast`, `relocate` and the out-of-place
elementwise operations. -/
def freshCopy (s : Store) (v : View) (kind : ElementKind) (loc : Location)
    (g : Rat → Rat) : Store × View :=
  (⟨s.bufs ++ [⟨kind, loc, (materialize_sequence s v).map g⟩]⟩,
   ⟨s.bufs.length, 0, v.shape, contiguousStrides v.shape⟩)

/-- Element kind of the Buffer a View references (defaulting when dangling). -/
def bufKind (s : Store) (v : View) : ElementKind :=
  ((s.bufs[v.buf]?).map Buffer.kind).getD .float32

/-- Location of the Buffer a View references (defaulting when dangling). -/
def bufLoc (s : Store) (v : View) : Location :=
  ((s.bufs[v.buf]?).map Buffer.location).getD .cpu

/-- Modelled from the spec: `to_owned_copy()` allocates a new Buffer whose
element order matches the View's logical layout; always a deep copy with
independent lifetime (the notebook's `torch.tensor(arr_np)` construction). -/
def to_owned_copy (s : Store) (v : View) : Store × View :=
  freshCopy s v (bufKind s v) (bufLoc s v) id

/-- Truncation of a rational toward zero, the C-style float-to-int rule. -/
def truncRat (q : Rat) : Int :=
  if q < 0 then ⌈q⌉ else ⌊q⌋

/-- Wrap an integer into the signed range of a `w`-bit machine integer. -/
def signedWrap (n : Int) (w : Nat) : Int :=
  (n + 2 ^ (w - 1)) % 2 ^ w - 2 ^ (w - 1)

/-- Modelled from the spec: value conversion for `cast(target_kind)` per
standard narrowing/widening numeric conversion rules — truncation toward zero
and wrap-around into the target width for integer kinds, zero-test for
boolean, and the identity on the rational idealisation for floating kinds. -/
def convert (k : ElementKind) (q : Rat) : Rat :=
  if k.isSignedInt then ((signedWrap (truncRat q) k.width : Int) : Rat)
  else if k.isUnsignedInt then ((truncRat q % 2 ^ k.width : Int) : Rat)
  else if k = .boolKind then (if q = 0 then 0 else 1)
  else q

/-- Modelled from the spec: `cast(target_kind)` always produces a new Buffer
with converted values and never aliases the source (the notebook's
`.short()` / `.double()`). -/
def cast (s : Store) (v : View) (k : ElementKind) : Store × View :=
  freshCopy s v k (bufLoc s v) (convert k)

/-- Modelled from the spec: `relocate(target_location)` always copies, never
aliases, and fails with `UnavailableLocationError` when the target location is
absent from the runtime environment `env` (the notebook's `.to('cpu')`). -/
def relocate (s : Store) (env : List Location) (v : View) (L : Location) :
    Except TensorError (Store × View) :=
  if L ∈ env then .ok (freshCopy s v (bufKind s v) L id)
  else .error .UnavailableLocationError

/-- Out-of-place elementwise operation (the notebook's `torch.sqrt`): apply
`f` to every element, writing the results into a freshly allocated Buffer and
leaving the input untouched. -/
def mapOut (f : Rat → Rat) (s : Store) (v : View) : Store × View :=
  freshCopy s v (bufKind s v) (bufLoc s v) f

/-- Flat addresses reachable through a View, in logical order. -/
def addrs (v : View) : List Int :=
  (List.range v.shape.prod).map fun k => flatAddr v (unflatten v.shape k)

/-- In-place elementwise operation (the notebook's trailing-underscore
`Tensor.sqrt_`): apply `f` to every Buffer cell reachable through the View,
writing the results back into the View's own Buffer. -/
def mapInPlace (f : Rat → Rat) (s : Store) (v : View) : Store :=
  match s.bufs[v.buf]? with
  | none => s
  | some b =>
    ⟨s.bufs.set v.buf ⟨b.kind, b.location,
      (List.range b.data.length).map fun (a : Nat) =>
        if (a : Int) ∈ addrs v then f (b.data.getD a 0) else b.data.getD a 0⟩⟩

/-- Bounds invariant of a View against a Buffer capacity: every valid
multi-index resolves to a flat address inside `[0, cap)`. -/
def inBounds (cap : Nat) (v : View) : Prop :=
  ∀ ix, validIx ix v.shape = true → 0 ≤ flatAddr v ix ∧ (flatAddr v ix).toNat < cap

/-- View `w` is a relabeling of View `v`: it references the same Buffer, is
well-formed, and every element reachable through `w` is an element reachable
through `v` (hence through the shared Buffer) at the same flat address. -/
def relabels (v w : View) : Prop :=
  w.buf = v.buf ∧ wf w ∧
  ∀ ix, validIx ix w.shape = true →
    ∃ jx, validIx jx v.shape = true ∧ flatAddr w ix = flatAddr v jx

/-- Sample single-buffer store mirroring the notebook's `twotwo = 2 * torch.ones(2)`. -/
def twotwoBuf : Buffer :=
  ⟨.float32, .cpu, [2, 2]⟩

/-- Store holding just `twotwoBuf`. -/
def twotwoStore : Store :=
  ⟨[twotwoBuf]⟩

/-- Full-extent 1-D view over `twotwoBuf`. -/
def twotwoView : View :=
  ⟨0, 0, [2], [1]⟩

/-- Sample buffer used by concrete witnesses: a 2×3 row-major float block. -/
def sampleBuf : Buffer :=
  ⟨.float64, .cpu, [1, 2, 3, 4, 5, 6]⟩

/-- Sample store holding just `sampleBuf`. -/
def sampleStore : Store :=
  ⟨[sampleBuf]⟩

/-- Sample full-extent 2×3 view over `sampleBuf` (row-major strides). -/
def sampleView : View :=
  ⟨0, 0, [2, 3], [3, 1]⟩

/-- C1: for every Buffer and every pair of Views referencing it (such as a
tensor and the array returned by its no-copy numpy conversion), writing a
value at a logical position through the first View makes that value readable
through the second View at the same logical position (the two Views resolve
the position to the same element of the shared Buffer). -/
theorem write_read_aliasing (s : Store) (v₁ v₂ : View) (b : Buffer)
    (ix : List Nat) (val : Rat)
    (hbuf : v₁.buf = v₂.buf)
    (hb : s.bufs[v₁.buf]? = some b)
    (h1 : validIx ix v₁.shape = true)
    (h2 : validIx ix v₂.shape = true)
    (haddr : flatAddr v₁ ix = flatAddr v₂ ix)
    (hpos : 0 ≤ flatAddr v₁ ix)
    (hlt : (flatAddr v₁ ix).toNat < b.data.length) :
    read (write s v₁ ix val) v₂ ix = some val := by
  have hlen : v₁.buf < s.bufs.length := (List.getElem?_eq_some_iff.mp hb).1
  unfold write
  rw [hb]
  simp only [h1, Bool.true_and, decide_eq_true_eq]
  rw [if_pos hpos]
  unfold read
  simp only [← hbuf]
  rw [List.getElem?_set_self hlen]
  simp only [h2, Bool.true_and, decide_eq_true_eq, ← haddr]
  rw [if_pos hpos]
  rw [List.getElem?_set_self (by simpa using hlt)]

/-- Concrete instantiation of C1: two identical-descriptor views over the one
sample buffer; writing 20 at logical position (0,1) through the first is read
back through the second. -/
theorem write_read_aliasing_witness :
    sampleStore.bufs[sampleView.buf]? = some sampleBuf ∧
    validIx [0, 1] sampleView.shape = true ∧
    0 ≤ flatAddr sampleView [0, 1] ∧
    (flatAddr sampleView [0, 1]).toNat < sampleBuf.data.length ∧
    read (write sampleStore sampleView [0, 1] 20) sampleView [0, 1] = some 20 :=
  ⟨by decide, by decide, by decide, by decide,
    write_read_aliasing sampleStore sampleView sampleView sampleBuf [0, 1] 20
      rfl (by decide) (by decide) (by decide) rfl (by decide) (by decide)⟩

theorem length_swapNth (l : List α) (i j : Nat) :
    (swapNth l i j).length = l.length := by
  unfold swapNth
  rcases h1 : l[i]? with _ | a <;> rcases h2 : l[j]? with _ | b <;> simp

theorem getElem?_swapNth (l : List α) (i j k : Nat) (hi : i < l.length)
    (hj : j < l.length) :
    (swapNth l i j)[k]? = if k = i then l[j]? else if k = j then l[i]? else l[k]? := by
  unfold swapNth
  rw [List.getElem?_eq_getElem hi, List.getElem?_eq_getElem hj]
  rcases eq_or_ne k j with rfl | hkj
  · rw [List.getElem?_set_self (by simpa using hj)]
    rcases eq_or_ne k i with rfl | hki
    · simp [List.getElem?_eq_getElem hi]
    · simp [hki, List.getElem?_eq_getElem hi]
  · rw [List.getElem?_set_ne (Ne.symm hkj)]
    rcases eq_or_ne k i with rfl | hki
    · rw [List.getElem?_set_self hi]
      simp [hkj, List.getElem?_eq_getElem hj]
    · rw [List.getElem?_set_ne (Ne.symm hki)]
      simp [hki, hkj]

theorem swapNth_swapNth (l : List α) (i j : Nat) (hi : i < l.length)
    (hj : j < l.length) :
    swapNth (swapNth l i j) i j = l := by
  have hlen := length_swapNth l i j
  apply List.ext_getElem?
  intro k
  rw [getElem?_swapNth _ i j k (by omega) (by omega)]
  rw [getElem?_swapNth l i j j hi hj, getElem?_swapNth l i j i hi hj,
      getElem?_swapNth l i j k hi hj]
  rcases eq_or_ne k i with rfl | hki <;> rcases eq_or_ne k j with rfl | hkj <;>
    simp_all

theorem getD_set_self (l : List α) (i : Nat) (x d : α) (h : i < l.length) :
    (l.set i x).getD i d = x := by
  rw [List.getD_eq_getElem?_getD, List.getElem?_set_self h]
  rfl

theorem getD_set_ne (l : List α) (i j : Nat) (x d : α) (h : i ≠ j) :
    (l.set i x).getD j d = l.getD j d := by
  rw [List.getD_eq_getElem?_getD, List.getElem?_set_ne h, ← List.getD_eq_getElem?_getD]

theorem dot_set_left (a : List Nat) (b : List Int) (i : Nat) (x : Nat)
    (ha : i < a.length) (hb : i < b.length) :
    dot (a.set i x) b =
      dot a b - (a.getD i 0 : Int) * b.getD i 0 + (x : Int) * b.getD i 0 := by
  induction a generalizing b i with
  | nil => simp at ha
  | cons a0 as ih =>
    cases b with
    | nil => simp at hb
    | cons b0 bs =>
      cases i with
      | zero =>
        simp only [List.set_cons_zero, dot, List.getD_cons_zero]
        ring
      | succ n =>
        simp only [List.set_cons_succ, dot, List.getD_cons_succ]
        rw [ih bs n (by simpa using ha) (by simpa using hb)]
        ring

theorem dot_set_right (a : List Nat) (b : List Int) (i : Nat) (y : Int)
    (ha : i < a.length) (hb : i < b.length) :
    dot a (b.set i y) =
      dot a b - (a.getD i 0 : Int) * b.getD i 0 + (a.getD i 0 : Int) * y := by
  induction a generalizing b i with
  | nil => simp at ha
  | cons a0 as ih =>
    cases b with
    | nil => simp at hb
    | cons b0 bs =>
      cases i with
      | zero =>
        simp only [List.set_cons_zero, dot, List.getD_cons_zero]
        ring
      | succ n =>
        simp only [List.set_cons_succ, dot, List.getD_cons_succ]
        rw [ih bs n (by simpa using ha) (by simpa using hb)]
        ring

theorem dot_set_set (a : List Nat) (b : List Int) (i : Nat) (x : Nat) (y : Int)
    (ha : i < a.length) (hb : i < b.length) :
    dot (a.set i x) (b.set i y) =
      dot a b - (a.getD i 0 : Int) * b.getD i 0 + (x : Int) * y := by
  rw [dot_set_right (a.set i x) b i y (by simpa using ha) hb,
      dot_set_left a b i x ha hb, getD_set_self a i x 0 ha]
  ring

theorem dot_swapNth (a : List Nat) (b : List Int) (i j : Nat)
    (hai : i < a.length) (haj : j < a.length)
    (hbi : i < b.length) (hbj : j < b.length) :
    dot (swapNth a i j) (swapNth b i j) = dot a b := by
  unfold swapNth
  rw [List.getElem?_eq_getElem hai, List.getElem?_eq_getElem haj,
      List.getElem?_eq_getElem hbi, List.getElem?_eq_getElem hbj]
  rw [dot_set_set _ _ j _ _ (by simpa using haj) (by simpa using hbj)]
  rw [dot_set_set a b i _ _ hai hbi]
  rcases eq_or_ne i j with rfl | hij
  · rw [getD_set_self a i _ 0 hai, getD_set_self b i _ 0 hbi]
    rw [List.getD_eq_getElem a 0 hai, List.getD_eq_getElem b 0 hbi]
    ring
  · rw [getD_set_ne a i j _ 0 hij, getD_set_ne b i j _ 0 hij]
    rw [List.getD_eq_getElem a 0 hai, List.getD_eq_getElem b 0 hbi,
        List.getD_eq_getElem a 0 haj, List.getD_eq_getElem b 0 hbj]
    ring

theorem validIx_length (ix sh : List Nat) (h : validIx ix sh = true) :
    ix.length = sh.length := by
  induction ix generalizing sh with
  | nil =>
    cases sh with
    | nil => rfl
    | cons n ns => simp [validIx] at h
  | cons i is ih =>
    cases sh with
    | nil => simp [validIx] at h
    | cons n ns =>
      simp only [validIx, Bool.and_eq_true, decide_eq_true_eq] at h
      simp [ih ns h.2]

theorem length_contiguousStrides (sh : List Nat) :
    (contiguousStrides sh).length = sh.length := by
  induction sh with
  | nil => rfl
  | cons n ns ih => simp [contiguousStrides, ih]

theorem length_unflatten (sh : List Nat) (k : Nat) :
    (unflatten sh k).length = sh.length := by
  induction sh generalizing k with
  | nil => rfl
  | cons n ns ih => simp [unflatten, ih]

theorem flattenIx_lt (ix sh : List Nat) (h : validIx ix sh = true) :
    flattenIx sh ix < sh.prod := by
  induction ix generalizing sh with
  | nil =>
    cases sh with
    | nil => simp [flattenIx]
    | cons n ns => simp [validIx] at h
  | cons i is ih =>
    cases sh with
    | nil => simp [validIx] at h
    | cons n ns =>
      simp only [validIx, Bool.and_eq_true, decide_eq_true_eq] at h
      have h2 := ih ns h.2
      simp only [flattenIx, List.prod_cons]
      calc i * ns.prod + flattenIx ns is < i * ns.prod + ns.prod := by omega
        _ = (i + 1) * ns.prod := by ring
        _ ≤ n * ns.prod := Nat.mul_le_mul_right _ h.1

theorem validIx_unflatten (sh : List Nat) (k : Nat) (h : k < sh.prod) :
    validIx (unflatten sh k) sh = true := by
  induction sh generalizing k with
  | nil => rfl
  | cons n ns ih =>
    have hp : 0 < ns.prod := by
      rcases Nat.eq_zero_or_pos ns.prod with h0 | h0
      · rw [List.prod_cons, h0, Nat.mul_zero] at h
        omega
      · exact h0
    simp only [unflatten, validIx, Bool.and_eq_true, decide_eq_true_eq]
    refine ⟨?_, ih _ (Nat.mod_lt _ hp)⟩
    rw [List.prod_cons, Nat.mul_comm] at h
    exact Nat.div_lt_of_lt_mul h

theorem flattenIx_unflatten (sh : List Nat) (k : Nat) (h : k < sh.prod) :
    flattenIx sh (unflatten sh k) = k := by
  induction sh generalizing k with
  | nil =>
    simp only [List.prod_nil] at h
    simp [unflatten, flattenIx]
    omega
  | cons n ns ih =>
    have hp : 0 < ns.prod := by
      rcases Nat.eq_zero_or_pos ns.prod with h0 | h0
      · rw [List.prod_cons, h0, Nat.mul_zero] at h
        omega
      · exact h0
    simp only [unflatten, flattenIx]
    rw [ih _ (Nat.mod_lt _ hp), Nat.mul_comm]
    exact Nat.div_add_mod k ns.prod

theorem unflatten_flattenIx (ix sh : List Nat) (h : validIx ix sh = true) :
    unflatten sh (flattenIx sh ix) = ix := by
  induction ix generalizing sh with
  | nil =>
    cases sh with
    | nil => rfl
    | cons n ns => simp [validIx] at h
  | cons i is ih =>
    cases sh with
    | nil => simp [validIx] at h
    | cons n ns =>
      simp only [validIx, Bool.and_eq_true, decide_eq_true_eq] at h
      have hlt := flattenIx_lt is ns h.2
      have hp : 0 < ns.prod := Nat.lt_of_le_of_lt (Nat.zero_le _) hlt
      simp only [unflatten, flattenIx]
      rw [Nat.mul_comm i ns.prod, Nat.mul_add_div hp, Nat.mul_add_mod,
          Nat.div_eq_of_lt hlt, Nat.mod_eq_of_lt hlt, Nat.add_zero, ih ns h.2]

theorem dot_contig (ix sh : List Nat) (h : ix.length = sh.length) :
    dot ix (contiguousStrides sh) = (flattenIx sh ix : Int) := by
  induction ix generalizing sh with
  | nil =>
    cases sh with
    | nil => simp [dot, contiguousStrides, flattenIx]
    | cons n ns => simp at h
  | cons i is ih =>
    cases sh with
    | nil => simp at h
    | cons n ns =>
      simp only [contiguousStrides, dot, flattenIx]
      rw [ih ns (by simpa using h)]
      push_cast
      ring

theorem validIx_zeroIx (sh : List Nat) (h : sh.prod = 1) :
    validIx (zeroIx sh) sh = true := by
  induction sh with
  | nil => rfl
  | cons n ns ih =>
    rw [List.prod_cons] at h
    have hn : n = 1 := Nat.dvd_one.mp ⟨ns.prod, h.symm⟩
    have hns : ns.prod = 1 := by
      rw [hn, Nat.one_mul] at h
      exact h
    simp only [zeroIx, List.length_cons, List.replicate_succ, validIx,
      Bool.and_eq_true, decide_eq_true_eq]
    exact ⟨by omega, ih hns⟩

/-- C4: for every View and new shape `s`, `reshape(V, s)` returns a new View
over the same Buffer (same offset, the requested shape, and every logical
position reading the very same element as before) exactly when V's existing
strides make `s` expressible as a strided reinterpretation of a
contiguous-equivalent layout, and otherwise fails with `NotContiguousError`;
being a pure function on the View descriptor, it never copies. -/
theorem reshape_spec (v : View) (sh : List Nat) :
    ((∃ w, reshape v sh = .ok w) ↔
      v.strides = contiguousStrides v.shape ∧ sh.prod = v.shape.prod) ∧
    (∀ w, reshape v sh = .ok w →
      w.buf = v.buf ∧ w.shape = sh ∧ w.offset = v.offset ∧
      ∀ s k, k < sh.prod →
        read s w (unflatten sh k) = read s v (unflatten v.shape k)) ∧
    (¬(v.strides = contiguousStrides v.shape ∧ sh.prod = v.shape.prod) →
      reshape v sh = .error .NotContiguousError) := by
  by_cases hc : v.strides = contiguousStrides v.shape ∧ sh.prod = v.shape.prod
  · have hok : reshape v sh = .ok ⟨v.buf, v.offset, sh, contiguousStrides sh⟩ := by
      unfold reshape
      rw [if_pos hc]
    refine ⟨⟨fun _ => hc, fun _ => ⟨_, hok⟩⟩, ?_, fun hn => absurd hc hn⟩
    intro w hw
    rw [hok] at hw
    cases hw
    refine ⟨rfl, rfl, rfl, ?_⟩
    intro s k hk
    have hk' : k < v.shape.prod := hc.2 ▸ hk
    have hv1 : validIx (unflatten sh k) sh = true := validIx_unflatten sh k hk
    have hv2 : validIx (unflatten v.shape k) v.shape = true :=
      validIx_unflatten v.shape k hk'
    have ha1 : flatAddr ⟨v.buf, v.offset, sh, contiguousStrides sh⟩
        (unflatten sh k) = v.offset + (k : Int) := by
      unfold flatAddr
      rw [dot_contig _ _ (by rw [length_unflatten]), flattenIx_unflatten sh k hk]
    have ha2 : flatAddr v (unflatten v.shape k) = v.offset + (k : Int) := by
      unfold flatAddr
      rw [hc.1, dot_contig _ _ (by rw [length_unflatten]),
        flattenIx_unflatten v.shape k hk']
    unfold read
    cases s.bufs[v.buf]? with
    | none => rfl
    | some b => rw [ha1, ha2, hv1, hv2]
  · have herr : reshape v sh = .error .NotContiguousError := by
      unfold reshape
      rw [if_neg hc]
    refine ⟨⟨?_, fun h => absurd h hc⟩, ?_, fun _ => herr⟩
    · rintro ⟨w, hw⟩
      rw [herr] at hw
      cases hw
    · intro w hw
      rw [herr] at hw
      cases hw

/-- Concrete instantiation of C4: the contiguous 2×3 sample view reshapes to
3×2 over the same buffer, and reshaping to an element-count-mismatched shape
fails with `NotContiguousError`. -/
theorem reshape_spec_witness :
    (∃ w, reshape sampleView [3, 2] = .ok w) ∧
    reshape sampleView [5] = .error .NotContiguousError :=
  ⟨(reshape_spec sampleView [3, 2]).1.mpr ⟨by decide, by decide⟩,
   (reshape_spec sampleView [5]).2.2 (by decide)⟩

/-- C6: `extract_scalar` (the notebook's `item()`) succeeds and returns the
detached value at the View's unique logical position exactly when the shape
denotes one element (such as `()` or `(1,)`); on any View with a different
element count, such as shape `(2,)`, it fails with `ShapeError`. -/
theorem extract_scalar_spec (s : Store) (v : View) (b : Buffer)
    (hb : s.bufs[v.buf]? = some b)
    (hpos : 0 ≤ flatAddr v (zeroIx v.shape))
    (hlt : (flatAddr v (zeroIx v.shape)).toNat < b.data.length) :
    (v.shape.prod = 1 →
      ∃ q, extract_scalar s v = .ok q ∧ read s v (zeroIx v.shape) = some q) ∧
    (v.shape.prod ≠ 1 → extract_scalar s v = .error .ShapeError) := by
  constructor
  · intro h1
    have hval : validIx (zeroIx v.shape) v.shape = true := validIx_zeroIx v.shape h1
    have hread : read s v (zeroIx v.shape) =
        some (b.data.getD (flatAddr v (zeroIx v.shape)).toNat 0) := by
      unfold read
      rw [hb]
      simp only [hval, Bool.true_and, decide_eq_true_eq]
      rw [if_pos hpos, List.getElem?_eq_getElem hlt, List.getD_eq_getElem b.data 0 hlt]
    refine ⟨_, ?_, hread⟩
    unfold extract_scalar
    rw [if_pos h1, hread]
  · intro h1
    unfold extract_scalar
    rw [if_neg h1]

/-- Concrete instantiation of C6: a one-element view over the sample buffer
yields its value, and the 2×3 sample view (more than one element) fails with
`ShapeError`. -/
theorem extract_scalar_spec_witness :
    sampleStore.bufs[(0 : Nat)]? = some sampleBuf ∧
    (∃ q, extract_scalar sampleStore ⟨0, 0, [1], [1]⟩ = .ok q ∧
      read sampleStore ⟨0, 0, [1], [1]⟩ (zeroIx [1]) = some q) ∧
    extract_scalar sampleStore sampleView = .error .ShapeError :=
  ⟨by decide,
   (extract_scalar_spec sampleStore ⟨0, 0, [1], [1]⟩ sampleBuf (by decide)
      (by decide) (by decide)).1 (by decide),
   (extract_scalar_spec sampleStore sampleView sampleBuf (by decide)
      (by decide) (by decide)).2 (by decide)⟩


theorem read_write_other (s : Store) (v w : View) (ix jx : List Nat) (val : Rat)
    (h : w.buf ≠ v.buf) :
    read (write s w jx val) v ix = read s v ix := by
  unfold write
  split
  · rfl
  · split
    · unfold read
      rw [List.getElem?_set_ne h]
    · rfl

theorem read_append (s : Store) (nb : Buffer) (v : View) (ix : List Nat)
    (h : v.buf < s.bufs.length) :
    read ⟨s.bufs ++ [nb]⟩ v ix = read s v ix := by
  unfold read
  rw [List.getElem?_append, if_pos h]

theorem read_freshCopy (s : Store) (v : View) (kind : ElementKind)
    (loc : Location) (g : Rat → Rat) (ix : List Nat)
    (hix : validIx ix v.shape = true) :
    read ⟨s.bufs ++ [⟨kind, loc, (materialize_sequence s v).map g⟩]⟩
      ⟨s.bufs.length, 0, v.shape, contiguousStrides v.shape⟩ ix =
      some (g ((read s v ix).getD 0)) := by
  have hlen : ix.length = v.shape.length := validIx_length ix v.shape hix
  have hk : flattenIx v.shape ix < v.shape.prod := flattenIx_lt ix v.shape hix
  have haddr : flatAddr ⟨s.bufs.length, 0, v.shape, contiguousStrides v.shape⟩ ix
      = (flattenIx v.shape ix : Int) := by
    unfold flatAddr
    rw [dot_contig ix v.shape hlen]
    simp
  unfold read
  rw [List.getElem?_concat_length]
  dsimp only
  simp only [hix, Bool.true_and, decide_eq_true_eq, haddr]
  rw [if_pos (Int.natCast_nonneg _), Int.toNat_natCast]
  unfold materialize_sequence
  rw [List.getElem?_map, List.getElem?_map, List.getElem?_range hk]
  simp only [Option.map_some']
  rw [unflatten_flattenIx ix v.shape hix]
  unfold read
  simp only [hix, Bool.true_and, decide_eq_true_eq]


theorem validIx_iff (ix sh : List Nat) :
    validIx ix sh = true ↔
      ix.length = sh.length ∧ ∀ k, k < sh.length → ix.getD k 0 < sh.getD k 0 := by
  induction ix generalizing sh with
  | nil => cases sh <;> simp [validIx]
  | cons i is ih =>
    cases sh with
    | nil => simp [validIx]
    | cons n ns =>
      simp only [validIx, Bool.and_eq_true, decide_eq_true_eq, ih,
        List.length_cons]
      constructor
      · rintro ⟨h1, h2, h3⟩
        refine ⟨by omega, ?_⟩
        intro k hk
        cases k with
        | zero => simpa using h1
        | succ m => simpa using h3 m (by omega)
      · rintro ⟨h1, h2⟩
        refine ⟨by simpa using h2 0 (by omega), by omega, ?_⟩
        intro m hm
        simpa using h2 (m + 1) (by omega)

theorem getD_swapNth (l : List α) (i j k : Nat) (d : α)
    (hi : i < l.length) (hj : j < l.length) :
    (swapNth l i j).getD k d =
      if k = i then l.getD j d else if k = j then l.getD i d else l.getD k d := by
  rw [List.getD_eq_getElem?_getD, getElem?_swapNth l i j k hi hj]
  rcases eq_or_ne k i with rfl | h1
  · simp [List.getD_eq_getElem?_getD]
  · rcases eq_or_ne k j with rfl | h2
    · simp [h1, List.getD_eq_getElem?_getD]
    · simp [h1, h2, List.getD_eq_getElem?_getD]

theorem validIx_swapNth (ix sh : List Nat) (i j : Nat)
    (hi : i < sh.length) (hj : j < sh.length)
    (h : validIx ix (swapNth sh i j) = true) :
    validIx (swapNth ix i j) sh = true := by
  obtain ⟨hlen, hpt⟩ := (validIx_iff ix (swapNth sh i j)).mp h
  rw [length_swapNth] at hlen
  have hi' : i < ix.length := by omega
  have hj' : j < ix.length := by omega
  refine (validIx_iff _ _).mpr ⟨by rw [length_swapNth]; exact hlen, ?_⟩
  intro k hk
  rw [getD_swapNth ix i j k 0 hi' hj']
  by_cases hki : k = i
  · rw [if_pos hki]
    have hp := hpt j (by rw [length_swapNth]; exact hj)
    rw [getD_swapNth sh i j j 0 hi hj] at hp
    by_cases hji : j = i
    · rw [if_pos hji] at hp
      rw [hki, ← hji]
      exact hp
    · rw [if_neg hji, if_pos rfl] at hp
      rw [hki]
      exact hp
  · rw [if_neg hki]
    by_cases hkj : k = j
    · rw [if_pos hkj]
      have hp := hpt i (by rw [length_swapNth]; exact hi)
      rw [getD_swapNth sh i j i 0 hi hj, if_pos rfl] at hp
      rw [hkj]
      exact hp
    · rw [if_neg hkj]
      have hp := hpt k (by rw [length_swapNth]; exact hk)
      rw [getD_swapNth sh i j k 0 hi hj, if_neg hki, if_neg hkj] at hp
      exact hp

theorem dot_swapNth_left (ix : List Nat) (b : List Int) (i j : Nat)
    (hi1 : i < ix.length) (hj1 : j < ix.length)
    (hi2 : i < b.length) (hj2 : j < b.length) :
    dot (swapNth ix i j) b = dot ix (swapNth b i j) := by
  have h := dot_swapNth (swapNth ix i j) b i j
    (by rw [length_swapNth]; exact hi1) (by rw [length_swapNth]; exact hj1)
    hi2 hj2
  rw [swapNth_swapNth ix i j hi1 hj1] at h
  exact h.symm

theorem dot_insertIdx_left (d : Nat) (x : Nat) (a : List Nat) (b : List Int)
    (ha : d ≤ a.length) (hb : d ≤ b.length) :
    dot (a.insertIdx d x) b = (x : Int) * b.getD d 0 + dot a (b.eraseIdx d) := by
  induction d generalizing a b with
  | zero =>
    rw [List.insertIdx_zero]
    cases b with
    | nil => simp [dot]
    | cons b0 bs => simp [dot, List.eraseIdx_cons_zero, List.getD_cons_zero]
  | succ n ih =>
    cases a with
    | nil => simp at ha
    | cons a0 as =>
      cases b with
      | nil => simp at hb
      | cons b0 bs =>
        rw [List.insertIdx_succ_cons, List.eraseIdx_cons_succ]
        simp only [dot, List.getD_cons_succ]
        rw [ih as bs (by simpa using ha) (by simpa using hb)]
        ring

theorem dot_insertIdx_right (a : List Nat) (b : List Int) (d : Nat) (y : Int)
    (ha : d ≤ a.length) (hb : d ≤ b.length) :
    dot a (b.insertIdx d y) = (a.getD d 0 : Int) * y + dot (a.eraseIdx d) b := by
  induction d generalizing a b with
  | zero =>
    rw [List.insertIdx_zero]
    cases a with
    | nil => simp [dot]
    | cons a0 as => simp [dot, List.eraseIdx_cons_zero, List.getD_cons_zero]
  | succ n ih =>
    cases a with
    | nil => simp at ha
    | cons a0 as =>
      cases b with
      | nil => simp at hb
      | cons b0 bs =>
        rw [List.insertIdx_succ_cons, List.eraseIdx_cons_succ]
        simp only [dot, List.getD_cons_succ]
        rw [ih as bs (by simpa using ha) (by simpa using hb)]
        ring

theorem validIx_insertIdx (ix sh : List Nat) (d x : Nat)
    (hd : d < sh.length) (hx : x < sh.getD d 0)
    (h : validIx ix (sh.eraseIdx d) = true) :
    validIx (ix.insertIdx d x) sh = true := by
  induction d generalizing ix sh with
  | zero =>
    cases sh with
    | nil => simp at hd
    | cons n ns =>
      rw [List.insertIdx_zero]
      rw [List.eraseIdx_cons_zero] at h
      simp only [validIx, Bool.and_eq_true, decide_eq_true_eq]
      exact ⟨by simpa using hx, h⟩
  | succ n ih =>
    cases sh with
    | nil => simp at hd
    | cons s0 ss =>
      rw [List.eraseIdx_cons_succ] at h
      cases ix with
      | nil => simp [validIx] at h
      | cons i is =>
        simp only [validIx, Bool.and_eq_true, decide_eq_true_eq] at h
        rw [List.insertIdx_succ_cons]
        simp only [validIx, Bool.and_eq_true, decide_eq_true_eq]
        exact ⟨h.1, ih is ss (by simpa using hd) (by simpa using hx) h.2⟩

theorem validIx_of_insertIdx (ix sh : List Nat) (d n : Nat)
    (hd : d ≤ sh.length) (h : validIx ix (sh.insertIdx d n) = true) :
    ix.getD d 0 < n ∧ validIx (ix.eraseIdx d) sh = true := by
  induction d generalizing ix sh with
  | zero =>
    rw [List.insertIdx_zero] at h
    cases ix with
    | nil => simp [validIx] at h
    | cons i is =>
      simp only [validIx, Bool.and_eq_true, decide_eq_true_eq] at h
      exact ⟨by simpa using h.1, by rw [List.eraseIdx_cons_zero]; exact h.2⟩
  | succ m ih =>
    cases sh with
    | nil => simp at hd
    | cons s0 ss =>
      rw [List.insertIdx_succ_cons] at h
      cases ix with
      | nil => simp [validIx] at h
      | cons i is =>
        simp only [validIx, Bool.and_eq_true, decide_eq_true_eq] at h
        obtain ⟨h1, h2⟩ := ih is ss (by simpa using hd) h.2
        refine ⟨by simpa using h1, ?_⟩
        rw [List.eraseIdx_cons_succ]
        simp only [validIx, Bool.and_eq_true, decide_eq_true_eq]
        exact ⟨h.1, h2⟩

theorem slice_index_lt (start stop step i : Nat) (hstep : 1 ≤ step)
    (hss : start ≤ stop) (hi : i < (stop - start + step - 1) / step) :
    start + i * step < stop := by
  have h2 : (i + 1) * step ≤ ((stop - start + step - 1) / step) * step :=
    Nat.mul_le_mul_right step hi
  have h3 : ((stop - start + step - 1) / step) * step ≤ stop - start + step - 1 :=
    Nat.div_mul_le_self _ _
  rw [Nat.add_mul, Nat.one_mul] at h2
  omega

theorem inBounds_of_relabels (v w : View) (h : relabels v w) (cap : Nat)
    (hv : inBounds cap v) : inBounds cap w := by
  intro ix hix
  obtain ⟨jx, hj, he⟩ := h.2.2 ix hix
  rw [he]
  exact hv jx hj

/-- C9: for every View and every in-range dimension index `d` with
`shape[d] ≠ 1`, `squeeze(V, d)` succeeds and returns the View itself — the
same shape and logical contents, a no-op — rather than removing the dimension
or raising an error (the notebook's `d.squeeze(0)` on a 2×2 tensor). -/
theorem squeeze_noop (v : View) (d : Nat)
    (hd : d < v.shape.length) (h1 : v.shape.getD d 0 ≠ 1) :
    squeeze v d = .ok v := by
  unfold squeeze
  rw [if_pos hd, if_neg h1]

/-- Concrete instantiation of C9: squeezing dimension 0 of the 2×3 sample view
leaves it unchanged. -/
theorem squeeze_noop_witness :
    0 < sampleView.shape.length ∧ sampleView.shape.getD 0 0 ≠ 1 ∧
    squeeze sampleView 0 = .ok sampleView :=
  ⟨by decide, by decide, squeeze_noop sampleView 0 (by decide) (by decide)⟩

/-- C5: for every well-formed View and dimension indices `i`, `j`,
`transpose(V, i, j)` returns a new View over the same Buffer with `shape` and
`strides` swapped at `i` and `j` when both indices are inside `[0, rank)`,
fails with `IndexError` when either index is out of range, and applying
`transpose(i, j)` twice yields the original View (involution). -/
theorem transpose_spec (v : View) (i j : Nat) (hwf : wf v) :
    (i < v.shape.length ∧ j < v.shape.length →
      transpose v i j =
        .ok ⟨v.buf, v.offset, swapNth v.shape i j, swapNth v.strides i j⟩ ∧
      ∀ w, transpose v i j = .ok w → transpose w i j = .ok v) ∧
    (i ≥ v.shape.length ∨ j ≥ v.shape.length →
      transpose v i j = .error .IndexError) := by
  constructor
  · intro h
    have hok : transpose v i j =
        .ok ⟨v.buf, v.offset, swapNth v.shape i j, swapNth v.strides i j⟩ := by
      unfold transpose
      rw [if_pos h]
    refine ⟨hok, ?_⟩
    intro w hw
    rw [hok] at hw
    cases hw
    unfold transpose
    rw [if_pos (by simpa [length_swapNth] using h)]
    rw [swapNth_swapNth v.shape i j h.1 h.2,
        swapNth_swapNth v.strides i j (hwf ▸ h.1) (hwf ▸ h.2)]
  · intro h
    unfold transpose
    rw [if_neg (by omega)]

/-- Concrete instantiation of C5: transposing the 2×3 sample view at (0, 1)
swaps shape and strides, and transposing again restores it; index 5 is
rejected with `IndexError`. -/
theorem transpose_spec_witness :
    wf sampleView ∧
    transpose sampleView 0 1 = .ok ⟨0, 0, [3, 2], [1, 3]⟩ ∧
    transpose ⟨0, 0, [3, 2], [1, 3]⟩ 0 1 = .ok sampleView ∧
    transpose sampleView 0 5 = .error .IndexError :=
  ⟨rfl,
   by
    have h := ((transpose_spec sampleView 0 1 rfl).1 ⟨by decide, by decide⟩).1
    simpa [swapNth, sampleView] using h,
   ((transpose_spec sampleView 0 1 rfl).1 ⟨by decide, by decide⟩).2
     ⟨0, 0, [3, 2], [1, 3]⟩
     (by
      have h := ((transpose_spec sampleView 0 1 rfl).1 ⟨by decide, by decide⟩).1
      simpa [swapNth, sampleView] using h),
   (transpose_spec sampleView 0 5 rfl).2 (Or.inr (by decide))⟩


/-- C3: a copying extraction (`to_owned_copy`, the basis of the notebook's
`torch.tensor(arr_np)` construction and of `item()`/`tolist()`) yields a value
with independent storage: the copy reproduces the source's logical contents,
every subsequent mutation through the source leaves the copy unchanged, and
every mutation through the copy leaves the source unchanged. -/
theorem to_owned_copy_independent (s : Store) (v : View)
    (hv : v.buf < s.bufs.length) :
    (to_owned_copy s v).2.buf ≠ v.buf ∧
    (∀ ix, validIx ix v.shape = true →
      read (to_owned_copy s v).1 (to_owned_copy s v).2 ix =
        some ((read s v ix).getD 0)) ∧
    (∀ ix jx val,
      read (write (to_owned_copy s v).1 v jx val) (to_owned_copy s v).2 ix =
        read (to_owned_copy s v).1 (to_owned_copy s v).2 ix) ∧
    (∀ ix jx val,
      read (write (to_owned_copy s v).1 (to_owned_copy s v).2 jx val) v ix =
        read (to_owned_copy s v).1 v ix) := by
  have hfresh : (to_owned_copy s v).2.buf = s.bufs.length := rfl
  refine ⟨by omega, ?_, ?_, ?_⟩
  · intro ix hix
    exact read_freshCopy s v (bufKind s v) (bufLoc s v) id ix hix
  · intro ix jx val
    exact read_write_other _ (to_owned_copy s v).2 v ix jx val (by omega)
  · intro ix jx val
    exact read_write_other _ v (to_owned_copy s v).2 ix jx val (by omega)

/-- Concrete instantiation of C3: after copying the 2×3 sample view, a write
through the source does not change what the copy reads at (0, 0). -/
theorem to_owned_copy_independent_witness :
    sampleView.buf < sampleStore.bufs.length ∧
    read (write (to_owned_copy sampleStore sampleView).1 sampleView [0, 0] 99)
        (to_owned_copy sampleStore sampleView).2 [0, 0] =
      read (to_owned_copy sampleStore sampleView).1
        (to_owned_copy sampleStore sampleView).2 [0, 0] :=
  ⟨by decide,
   (to_owned_copy_independent sampleStore sampleView (by decide)).2.2.1 [0, 0] [0, 0] 99⟩

/-- C7: casting the value 1 from any floating-point element kind to any
fixed-width integer kind and back to floating-point recovers exactly 1, and
`cast` always allocates a fresh Buffer whose handle differs from the source
View's — it never aliases the source. -/
theorem cast_roundtrip_fresh (s : Store) (v : View) (k : ElementKind)
    (hv : v.buf < s.bufs.length) :
    (∀ fk ik : ElementKind, fk.isFloat = true → ik.isInt = true →
      convert fk (convert ik 1) = 1) ∧
    (cast s v k).2.buf = s.bufs.length ∧ (cast s v k).2.buf ≠ v.buf := by
  have hc : (cast s v k).2.buf = s.bufs.length := rfl
  refine ⟨?_, rfl, by omega⟩
  intro fk ik hf hi
  cases fk <;> cases ik <;>
    first
      | exact absurd hf (by decide)
      | exact absurd hi (by decide)
      | decide

/-- Concrete instantiation of C7: 1 survives a float64 → int16 → float64
round-trip, and casting the sample view to int16 yields a view over a fresh
buffer. -/
theorem cast_roundtrip_fresh_witness :
    sampleView.buf < sampleStore.bufs.length ∧
    convert .float64 (convert .int16 1) = 1 ∧
    (cast sampleStore sampleView .int16).2.buf ≠ sampleView.buf :=
  ⟨by decide,
   (cast_roundtrip_fresh sampleStore sampleView .int16 (by decide)).1
     .float64 .int16 (by decide) (by decide),
   (cast_roundtrip_fresh sampleStore sampleView .int16 (by decide)).2.2⟩

/-- C8: `relocate` fails with `UnavailableLocationError` when the target
location is absent from the runtime environment; otherwise it always returns
a copy in a freshly allocated Buffer — never an alias of the source's Buffer,
even when the target location equals the View's current one — reproducing the
source's logical contents. -/
theorem relocate_spec (s : Store) (env : List Location) (v : View)
    (L : Location) (hv : v.buf < s.bufs.length) :
    (L ∉ env → relocate s env v L = .error .UnavailableLocationError) ∧
    (L ∈ env → ∀ r, relocate s env v L = .ok r →
      r.2.buf = s.bufs.length ∧ r.2.buf ≠ v.buf ∧
      ∀ ix, validIx ix v.shape = true →
        read r.1 r.2 ix = some ((read s v ix).getD 0)) := by
  constructor
  · intro hL
    unfold relocate
    rw [if_neg hL]
  · intro hL r hr
    unfold relocate at hr
    rw [if_pos hL] at hr
    cases hr
    have hfresh : (freshCopy s v (bufKind s v) L id).2.buf = s.bufs.length := rfl
    refine ⟨rfl, by omega, ?_⟩
    intro ix hix
    exact read_freshCopy s v (bufKind s v) L id ix hix

/-- Concrete instantiation of C8: relocating the sample view to an absent
`cuda` location fails with `UnavailableLocationError`, while relocating to its
own current `cpu` location still produces a view over a fresh buffer. -/
theorem relocate_spec_witness :
    sampleView.buf < sampleStore.bufs.length ∧
    relocate sampleStore [Location.cpu] sampleView .cuda =
      .error .UnavailableLocationError ∧
    (freshCopy sampleStore sampleView
        (bufKind sampleStore sampleView) .cpu id).2.buf ≠ sampleView.buf :=
  ⟨by decide,
   (relocate_spec sampleStore [Location.cpu] sampleView .cuda (by decide)).1
     (by decide),
   ((relocate_spec sampleStore [Location.cpu] sampleView .cpu (by decide)).2
     (by decide) _ rfl).2.1⟩

/-- C10: for an elementwise operation such as the notebook's square root, the
out-of-place variant (`torch.sqrt`, here `mapOut`) allocates a fresh Buffer
sharing no handle with the input and leaves the input's elements unchanged,
the in-place trailing-underscore variant (`sqrt_`, here `mapInPlace`) writes
the results into the View's own Buffer, and the two variants produce logically
equal element values at every position. -/
theorem mapOut_mapInPlace_spec (f : Rat → Rat) (s : Store) (v : View)
    (b : Buffer) (hb : s.bufs[v.buf]? = some b) :
    (mapOut f s v).2.buf = s.bufs.length ∧
    ((mapOut f s v).2.buf ≠ v.buf) ∧
    (∀ ix, read (mapOut f s v).1 v ix = read s v ix) ∧
    (∀ ix, validIx ix v.shape = true →
      read (mapOut f s v).1 (mapOut f s v).2 ix =
        some (f ((read s v ix).getD 0))) ∧
    ((mapInPlace f s v).bufs.length = s.bufs.length) ∧
    (∀ ix, validIx ix v.shape = true → 0 ≤ flatAddr v ix →
      (flatAddr v ix).toNat < b.data.length →
      read (mapInPlace f s v) v ix = some (f ((read s v ix).getD 0))) ∧
    (∀ ix, validIx ix v.shape = true → 0 ≤ flatAddr v ix →
      (flatAddr v ix).toNat < b.data.length →
      read (mapInPlace f s v) v ix =
        read (mapOut f s v).1 (mapOut f s v).2 ix) := by
  have hvlen : v.buf < s.bufs.length := (List.getElem?_eq_some_iff.mp hb).1
  have hfresh : (mapOut f s v).2.buf = s.bufs.length := rfl
  have h3 : ∀ ix, read (mapOut f s v).1 v ix = read s v ix := fun ix =>
    read_append s ⟨bufKind s v, bufLoc s v, (materialize_sequence s v).map f⟩
      v ix hvlen
  have h4 : ∀ ix, validIx ix v.shape = true →
      read (mapOut f s v).1 (mapOut f s v).2 ix =
        some (f ((read s v ix).getD 0)) := fun ix hix =>
    read_freshCopy s v (bufKind s v) (bufLoc s v) f ix hix
  have hstore : mapInPlace f s v =
      ⟨s.bufs.set v.buf ⟨b.kind, b.location,
        (List.range b.data.length).map fun (a : Nat) =>
          if (a : Int) ∈ addrs v then f (b.data.getD a 0)
          else b.data.getD a 0⟩⟩ := by
    unfold mapInPlace
    rw [hb]
  have h5 : (mapInPlace f s v).bufs.length = s.bufs.length := by
    rw [hstore]
    simp
  have h6 : ∀ ix, validIx ix v.shape = true → 0 ≤ flatAddr v ix →
      (flatAddr v ix).toNat < b.data.length →
      read (mapInPlace f s v) v ix = some (f ((read s v ix).getD 0)) := by
    intro ix hix hpos hlt
    have hmem : flatAddr v ix ∈ addrs v :=
      List.mem_map.mpr ⟨flattenIx v.shape ix,
        List.mem_range.mpr (flattenIx_lt ix v.shape hix),
        by rw [unflatten_flattenIx ix v.shape hix]⟩
    have hread : read s v ix = some (b.data.getD (flatAddr v ix).toNat 0) := by
      unfold read
      rw [hb]
      simp only [hix, Bool.true_and, decide_eq_true_eq]
      rw [if_pos hpos, List.getElem?_eq_getElem hlt,
        List.getD_eq_getElem b.data 0 hlt]
    rw [hstore, hread]
    simp only [Option.getD_some]
    unfold read
    rw [List.getElem?_set_self hvlen]
    simp only [hix, Bool.true_and, decide_eq_true_eq]
    rw [if_pos hpos, List.getElem?_map, List.getElem?_range hlt]
    simp only [Option.map_some']
    rw [Int.toNat_of_nonneg hpos, if_pos hmem]
  refine ⟨rfl, by omega, h3, h4, h5, h6, ?_⟩
  intro ix hix hpos hlt
  rw [h6 ix hix hpos hlt, h4 ix hix]

/-- Concrete instantiation of C10: squaring the two-element sample tensor
out of place leaves its buffer handle distinct from the source and reads the
same resulting value at position 0 as the in-place variant. -/
theorem mapOut_mapInPlace_spec_witness :
    twotwoStore.bufs[twotwoView.buf]? = some twotwoBuf ∧
    (mapOut (fun q => q * q) twotwoStore twotwoView).2.buf ≠ twotwoView.buf ∧
    read (mapInPlace (fun q => q * q) twotwoStore twotwoView) twotwoView [0] =
      read (mapOut (fun q => q * q) twotwoStore twotwoView).1
        (mapOut (fun q => q * q) twotwoStore twotwoView).2 [0] :=
  ⟨by decide,
   (mapOut_mapInPlace_spec (fun q => q * q) twotwoStore twotwoView twotwoBuf
     (by decide)).2.1,
   (mapOut_mapInPlace_spec (fun q => q * q) twotwoStore twotwoView twotwoBuf
     (by decide)).2.2.2.2.2.2 [0] (by decide) (by decide) (by decide)⟩


/-- C2: every shape-transforming operation — transpose, reshape, squeeze,
unsqueeze, slice — that succeeds returns a View over the same Buffer whose
reachable elements are a subset or relabeling of those reachable through the
original View (hence through the Buffer), and the bounds invariant is
preserved.  Each of these operations is a pure function on the View
descriptor: it takes no Store and returns no Store, so — unlike `allocate`
and `to_owned_copy`/`materialize_sequence` — it can neither duplicate nor
move any element of any Buffer. -/
theorem shape_ops_relabel (v : View) (hwf : wf v) :
    (∀ i j w, transpose v i j = .ok w →
      relabels v w ∧ ∀ cap, inBounds cap v → inBounds cap w) ∧
    (∀ sh w, reshape v sh = .ok w →
      relabels v w ∧ ∀ cap, inBounds cap v → inBounds cap w) ∧
    (∀ d w, squeeze v d = .ok w →
      relabels v w ∧ ∀ cap, inBounds cap v → inBounds cap w) ∧
    (∀ d w, unsqueeze v d = .ok w →
      relabels v w ∧ ∀ cap, inBounds cap v → inBounds cap w) ∧
    (∀ d start stop step w, slice v d start stop step = .ok w →
      relabels v w ∧ ∀ cap, inBounds cap v → inBounds cap w) := by
  have pack : ∀ w, relabels v w →
      relabels v w ∧ ∀ cap, inBounds cap v → inBounds cap w :=
    fun w hr => ⟨hr, fun cap hv => inBounds_of_relabels v w hr cap hv⟩
  refine ⟨?_, ?_, ?_, ?_, ?_⟩
  · intro i j w h
    apply pack
    unfold transpose at h
    split at h
    · rename_i hg
      obtain ⟨hi, hj⟩ := hg
      cases h
      refine ⟨rfl, ?_, ?_⟩
      · show (swapNth v.strides i j).length = (swapNth v.shape i j).length
        rw [length_swapNth, length_swapNth, hwf]
      · intro ix hix
        have hlen : ix.length = v.shape.length := by
          have h1 := validIx_length ix _ hix
          rw [length_swapNth] at h1
          exact h1
        refine ⟨swapNth ix i j, validIx_swapNth ix v.shape i j hi hj hix, ?_⟩
        show v.offset + dot ix (swapNth v.strides i j) =
          v.offset + dot (swapNth ix i j) v.strides
        rw [← dot_swapNth_left ix v.strides i j (by omega) (by omega)
          (by rw [hwf]; exact hi) (by rw [hwf]; exact hj)]
    · exact absurd h (by simp)
  · intro sh w h
    apply pack
    unfold reshape at h
    split at h
    · rename_i hc
      cases h
      refine ⟨rfl, ?_, ?_⟩
      · show (contiguousStrides sh).length = sh.length
        exact length_contiguousStrides sh
      · intro ix hix
        have hK : flattenIx sh ix < sh.prod := flattenIx_lt ix sh hix
        have hK2 : flattenIx sh ix < v.shape.prod := by
          rw [← hc.2]
          exact hK
        refine ⟨unflatten v.shape (flattenIx sh ix),
          validIx_unflatten _ _ hK2, ?_⟩
        show v.offset + dot ix (contiguousStrides sh) =
          v.offset + dot (unflatten v.shape (flattenIx sh ix)) v.strides
        rw [dot_contig ix sh (validIx_length ix sh hix), hc.1,
          dot_contig _ _ (by rw [length_unflatten]),
          flattenIx_unflatten _ _ hK2]
    · exact absurd h (by simp)
  · intro d w h
    apply pack
    unfold squeeze at h
    split at h
    · rename_i hd
      split at h
      · rename_i h1
        cases h
        have hd2 : d < v.strides.length := by
          rw [hwf]
          exact hd
        refine ⟨rfl, ?_, ?_⟩
        · show (v.strides.eraseIdx d).length = (v.shape.eraseIdx d).length
          rw [List.length_eraseIdx, List.length_eraseIdx, if_pos hd,
            if_pos hd2, hwf]
        · intro ix hix
          have hlen : ix.length = (v.shape.eraseIdx d).length :=
            validIx_length _ _ hix
          have hlen2 : (v.shape.eraseIdx d).length = v.shape.length - 1 := by
            rw [List.length_eraseIdx, if_pos hd]
          refine ⟨ix.insertIdx d 0,
            validIx_insertIdx ix v.shape d 0 hd (by omega) hix, ?_⟩
          show v.offset + dot ix (v.strides.eraseIdx d) =
            v.offset + dot (ix.insertIdx d 0) v.strides
          rw [dot_insertIdx_left d 0 ix v.strides (by omega) (by omega)]
          simp
      · cases h
        refine ⟨rfl, hwf, ?_⟩
        intro ix hix
        exact ⟨ix, hix, rfl⟩
    · exact absurd h (by simp)
  · intro d w h
    apply pack
    unfold unsqueeze at h
    split at h
    · rename_i hd
      cases h
      refine ⟨rfl, ?_, ?_⟩
      · show (v.strides.insertIdx d 1).length = (v.shape.insertIdx d 1).length
        rw [List.length_insertIdx d _ (by rw [hwf]; exact hd),
          List.length_insertIdx d _ hd, hwf]
      · intro ix hix
        obtain ⟨hlt, hval⟩ := validIx_of_insertIdx ix v.shape d 1 hd hix
        have hixlen : ix.length = v.shape.length + 1 := by
          have h1 := validIx_length _ _ hix
          rw [List.length_insertIdx d _ hd] at h1
          exact h1
        refine ⟨ix.eraseIdx d, hval, ?_⟩
        show v.offset + dot ix (v.strides.insertIdx d 1) =
          v.offset + dot (ix.eraseIdx d) v.strides
        rw [dot_insertIdx_right ix v.strides d 1 (by omega)
          (by rw [hwf]; omega)]
        have hz : ix.getD d 0 = 0 := by omega
        rw [hz]
        simp
    · exact absurd h (by simp)
  · intro d start stop step w h
    apply pack
    unfold slice at h
    split at h
    · rename_i hg
      obtain ⟨hd, hss, hsb, hstep⟩ := hg
      cases h
      have hds : d < v.strides.length := by
        rw [hwf]
        exact hd
      refine ⟨rfl, ?_, ?_⟩
      · show (v.strides.set d _).length = (v.shape.set d _).length
        rw [List.length_set, List.length_set, hwf]
      · intro ix hix
        obtain ⟨hlen, hpt⟩ := (validIx_iff _ _).mp hix
        rw [List.length_set] at hlen
        have hdix : d < ix.length := by omega
        have hi0 : ix.getD d 0 < (stop - start + step - 1) / step := by
          have hp := hpt d (by rw [List.length_set]; exact hd)
          rw [getD_set_self v.shape d _ 0 hd] at hp
          exact hp
        have hz : start + ix.getD d 0 * step < stop :=
          slice_index_lt start stop step (ix.getD d 0) hstep hss hi0
        refine ⟨ix.set d (start + ix.getD d 0 * step), ?_, ?_⟩
        · refine (validIx_iff _ _).mpr ⟨by rw [List.length_set]; omega, ?_⟩
          intro k hk
          by_cases hne : d = k
          · rw [← hne, getD_set_self ix d _ 0 hdix]
            omega
          · rw [getD_set_ne ix d k _ 0 hne]
            have hp := hpt k (by rw [List.length_set]; exact hk)
            rw [getD_set_ne v.shape d k _ 0 hne] at hp
            exact hp
        · show v.offset + (start : Int) * v.strides.getD d 0 +
            dot ix (v.strides.set d (v.strides.getD d 0 * (step : Int))) =
            v.offset + dot (ix.set d (start + ix.getD d 0 * step)) v.strides
          rw [dot_set_right ix v.strides d _ hdix hds,
            dot_set_left ix v.strides d _ hdix hds]
          push_cast
          ring
    · exact absurd h (by simp)

/-- Concrete instantiation of C2: transposing and reshaping the 2×3 sample
view produce relabelings of it over the same buffer. -/
theorem shape_ops_relabel_witness :
    wf sampleView ∧
    relabels sampleView ⟨0, 0, [3, 2], [1, 3]⟩ ∧
    relabels sampleView ⟨0, 0, [6], [1]⟩ :=
  ⟨rfl,
   ((shape_ops_relabel sampleView rfl).1 0 1 ⟨0, 0, [3, 2], [1, 3]⟩ rfl).1,
   ((shape_ops_relabel sampleView rfl).2.1 [6] ⟨0, 0, [6], [1]⟩ rfl).1⟩

end TensorModel
